import Mathlib

/-!
Verification development for the MindSpore Lite fp32 convolution kernels
declared in `nnacl/fp32/conv.h` and the TF converter node parser base class
in `tf_node_parser.h`.  Floating-point values are modelled as exact
rationals, so "numerically equivalent within tolerance" statements become
exact equalities of the rational-valued models.
The kernel bodies are not part of the excerpt (the header only declares
them), so each kernel is modelled from the specification text, as noted in
the individual doc comments.
-/

/-- Matrices as total functions on natural indices.  The meaningful region
is determined by the dimension arguments passed to each operation. -/
abbrev Mat : Type := ℕ → ℕ → ℚ

/-- Four-dimensional tensors in logical batch-height-width-channel
addressing, as total functions. -/
abbrev Tensor4 : Type := ℕ → ℕ → ℕ → ℕ → ℚ

/-- Modelled from the spec: `ConvParameter` (declared in
`nnacl/conv_parameter.h`, which is outside the excerpt) — the immutable
per-invocation convolution configuration: input/output tensor dimensions
(batch, height, width, channel), kernel height/width, stride, padding,
dilation, group count, and the activation-fusion flags. -/
structure ConvParameter where
  batch : ℕ
  inH : ℕ
  inW : ℕ
  inC : ℕ
  outH : ℕ
  outW : ℕ
  outC : ℕ
  kH : ℕ
  kW : ℕ
  strideH : ℕ
  strideW : ℕ
  padU : ℕ
  padL : ℕ
  dilationH : ℕ
  dilationW : ℕ
  group : ℕ
  actRelu : Bool
  actRelu6 : Bool

/-- Reading the input tensor through the conceptual zero padding: positions
whose coordinates fall outside the true input bounds read as zero rather
than requiring a materialised padded copy (spec section 4.3). -/
def paddedInput (p : ConvParameter) (input : Tensor4) (b : ℕ) (h w : ℤ)
    (c : ℕ) : ℚ :=
  if 0 ≤ h ∧ h < (p.inH : ℤ) ∧ 0 ≤ w ∧ w < (p.inW : ℤ) then
    input b h.toNat w.toNat c
  else 0

/-- The direct mathematical convolution definition: for each output
position, the dot product of the receptive field of the (conceptually
zero-padded, strided, dilated) input with the kernel, plus the bias of the
output channel.  Weight layout is (out-channel, kernel-row, kernel-column,
in-channel). -/
def convRef (p : ConvParameter) (input weight : Tensor4) (bias : ℕ → ℚ)
    (b oh ow oc : ℕ) : ℚ :=
  bias oc +
    ∑ kh in Finset.range p.kH, ∑ kw in Finset.range p.kW,
      ∑ ic in Finset.range p.inC,
        paddedInput p input b
            ((oh * p.strideH + kh * p.dilationH : ℕ) - (p.padU : ℤ))
            ((ow * p.strideW + kw * p.dilationW : ℕ) - (p.padL : ℤ)) ic *
          weight oc kh kw ic

/-- Modelled from the spec: the fused activation applied by the GEMM
micro-kernel (`GEMM_FUNC_FP32`, spec section 4.2): if the relu6 flag is
set, clamp to `[0, 6]`; if the relu flag is set, clamp negative values to
zero; otherwise pass the value through unmodified. -/
def applyAct (relu relu6 : Bool) (v : ℚ) : ℚ :=
  if relu6 then min (max v 0) 6 else if relu then max v 0 else v

/-- Modelled from the spec: the accumulation loop of the GEMM micro-kernel
for one output value — iterate over the `ic4` input-channel blocks, adding
the four-wide block dot product of packed input against packed weight at
each step. -/
def gemmAcc (x w : ℕ → ℚ) : ℕ → ℚ
  | 0 => 0
  | n + 1 => gemmAcc x w n + ∑ l in Finset.range 4, x (4 * n + l) * w (4 * n + l)

/-- Modelled from the spec: one output value of the GEMM micro-kernel
(`GEMM_FUNC_FP32`): accumulate over the input-channel blocks, add the bias
once after the accumulation, then apply the fused activation. -/
def gemmMicroKernel (x w : ℕ → ℚ) (bias : ℚ) (ic4 : ℕ)
    (relu relu6 : Bool) : ℚ :=
  applyAct relu relu6 (gemmAcc x w ic4 + bias)

/-- Modelled from the spec: start of the task slice owned by `task_id t`
when an iteration range of size `N` is divided into `T` contiguous
slices. -/
def sliceStart (N T t : ℕ) : ℕ := t * (N / T)

/-- Modelled from the spec: end (exclusive) of the task slice owned by
`task_id t`; the final slice absorbs the remainder when the range does not
divide evenly (spec section 4.3). -/
def sliceEnd (N T t : ℕ) : ℕ := if t + 1 = T then N else (t + 1) * (N / T)

/-- The task slice owned by `task_id t`: the contiguous interval from its
start to its end. -/
def taskSlice (N T t : ℕ) : Finset ℕ := Finset.Ico (sliceStart N T t) (sliceEnd N T t)

/-- Ceiling division, as the `UP_DIV` macro of `nnacl/op_base.h`. -/
def upDiv (a b : ℕ) : ℕ := (a + b - 1) / b

/-! ### Packing / layout transform (spec section 4.1) -/

/-- Flat address of element `(b, h, w, c)` of an NHWC tensor. -/
def nhwcIndex (H W C b h w c : ℕ) : ℕ := ((b * H + h) * W + w) * C + c

/-- Modelled from the spec: the value stored at packed position
`(b, blk, h, w, inner)` of the channel-block-interleaved `C4` layout:
channels are grouped into blocks of four, and block lanes beyond the true
channel count hold explicit zeros rather than garbage. -/
def packedC4Value (input : ℕ → ℚ) (H W C b blk h w inner : ℕ) : ℚ :=
  if 4 * blk + inner < C then input (nhwcIndex H W C b h w (4 * blk + inner))
  else 0

/-- The execution state seen by the packing transform: the caller's input
buffer and the caller's packed scratch buffer, both flat float arrays. -/
structure PackState where
  input : ℕ → ℚ
  packed : ℕ → ℚ

/-- One store into the packed buffer; the input buffer is untouched. -/
def writePacked (s : PackState) (i : ℕ) (v : ℚ) : PackState :=
  { s with packed := fun j => if j = i then v else s.packed j }

/-- Modelled from the spec: the value the packing loop stores at flat
packed address `n`, decoding `n` into `(b, blk, h, w, inner)` coordinates
of the `C4` layout over `C4 = upDiv C 4` channel blocks. -/
def packWriteValue (s : PackState) (H W C n : ℕ) : ℚ :=
  packedC4Value s.input H W C
    (n / (4 * W * H * upDiv C 4)) (n / (4 * W * H) % upDiv C 4)
    (n / (4 * W) % H) (n / 4 % W) (n % 4)

/-- Modelled from the spec: the packing transform as a loop of stores — the
first `n` iterations write flat packed addresses `0, …, n-1`, each reading
only from the input buffer and writing only into the packed buffer. -/
def runPack (H W C : ℕ) : ℕ → PackState → PackState
  | 0, s => s
  | n + 1, s =>
      let s' := runPack H W C n s
      writePacked s' n (packWriteValue s' H W C n)

/-- Per-position channel packing into blocks of width `cBlock`: lane
`(blk, inner)` holds channel `cBlock * blk + inner` when that channel
exists and an explicit zero otherwise. -/
def packChan (cBlock C : ℕ) (x : ℕ → ℚ) (blk inner : ℕ) : ℚ :=
  if cBlock * blk + inner < C then x (cBlock * blk + inner) else 0

/-- A GEMM against the identity weight matrix over a padded channel
dimension of size `n`: output lane `j` accumulates `v i` times the identity
weight entry. -/
def gemmIdentity (n : ℕ) (v : ℕ → ℚ) (j : ℕ) : ℚ :=
  ∑ i in Finset.range n, v i * (if i = j then 1 else 0)

/-- Reading channel `c` back out of a channel-blocked buffer of block width
`cBlock`. -/
def unpackChan (cBlock : ℕ) (y : ℕ → ℕ → ℚ) (c : ℕ) : ℚ :=
  y (c / cBlock) (c % cBlock)

/-- The round trip of spec section 8: pack the channel vector into the
blocked layout, run the GEMM micro-kernel with the identity weight over the
padded channel dimension, then unpack. -/
def packGemmUnpack (cBlock C : ℕ) (x : ℕ → ℚ) (c : ℕ) : ℚ :=
  unpackChan cBlock
    (fun blk inner =>
      gemmIdentity (cBlock * upDiv C cBlock)
        (fun i => packChan cBlock C x (i / cBlock) (i % cBlock))
        (cBlock * blk + inner)) c

/-! ### Matrix multiplication and the Strassen path (spec section 4.4) -/

/-- Pointwise sum of two matrices. -/
def addM (A B : Mat) : Mat := fun i j => A i j + B i j

/-- Pointwise difference of two matrices. -/
def subM (A B : Mat) : Mat := fun i j => A i j - B i j

/-- The standard tiled GEMM: entry `(i, j)` of the product, accumulating
over an inner dimension of size `K`. -/
def mulM (K : ℕ) (A B : Mat) : Mat :=
  fun i j => ∑ k in Finset.range K, A i k * B k j

/-- Modelled from the spec: the matrix-dimension threshold below which the
Strassen path falls back to the standard tiled GEMM, because Strassen's
extra additions and scratch traffic dominate at small sizes. -/
def strassenThreshold : ℕ := 32

/-- Modelled from the spec: the recursive Strassen matrix multiply used by
`Conv1x1Fp32` (`nnacl/fp32/strassen_matmul.h` is outside the excerpt) on an
`M×K` by `K×N` problem.  Below the threshold (or when a dimension is odd
and cannot be split) it falls back to the standard tiled GEMM; above it, it
splits each matrix into 2×2 blocks and combines seven recursive block
products. -/
def strassenRec (M K N : ℕ) (A B : Mat) : Mat :=
  if h : M ≤ strassenThreshold ∨ K ≤ strassenThreshold ∨ N ≤ strassenThreshold ∨
      M % 2 = 1 ∨ K % 2 = 1 ∨ N % 2 = 1 then
    mulM K A B
  else
    let m := M / 2
    let k := K / 2
    let n := N / 2
    let A12 : Mat := fun i j => A i (j + k)
    let A21 : Mat := fun i j => A (i + m) j
    let A22 : Mat := fun i j => A (i + m) (j + k)
    let B12 : Mat := fun i j => B i (j + n)
    let B21 : Mat := fun i j => B (i + k) j
    let B22 : Mat := fun i j => B (i + k) (j + n)
    let P1 := strassenRec m k n (addM A A22) (addM B B22)
    let P2 := strassenRec m k n (addM A21 A22) B
    let P3 := strassenRec m k n A (subM B12 B22)
    let P4 := strassenRec m k n A22 (subM B21 B)
    let P5 := strassenRec m k n (addM A A12) B22
    let P6 := strassenRec m k n (subM A21 A) (addM B B12)
    let P7 := strassenRec m k n (subM A12 A22) (addM B21 B22)
    fun i j =>
      if i < m then
        if j < n then (addM (subM (addM P1 P4) P5) P7) i j
        else (addM P3 P5) i (j - n)
      else
        if j < n then (addM P2 P4) (i - m) j
        else (addM (subM (addM P1 P3) P2) P6) (i - m) (j - n)
termination_by K
decreasing_by all_goals exact Nat.div_lt_self (by omega) (by omega)

/-- Modelled from the spec: `StrassenMatMulParameter`
(`nnacl/fp32/strassen_matmul.h` is outside the excerpt) — the shape of the
1×1-convolution matrix multiply: rows (spatial positions), depth (input
channels), columns (output channels). -/
structure StrassenMatMulParameter where
  row : ℕ
  deep : ℕ
  col : ℕ

/-- Modelled from the spec: the scratch-buffer requirement of the Strassen
path, which is recursion-depth-dependent — each recursion level needs room
for the half-size block operands and results, and the requirement of the
nested levels on top. -/
def strassenScratch (M K N : ℕ) : ℕ :=
  if M ≤ strassenThreshold ∨ K ≤ strassenThreshold ∨ N ≤ strassenThreshold ∨
      M % 2 = 1 ∨ K % 2 = 1 ∨ N % 2 = 1 then 0
  else
    M / 2 * (K / 2) + K / 2 * (N / 2) + M / 2 * (N / 2) +
      strassenScratch (M / 2) (K / 2) (N / 2)
termination_by K
decreasing_by exact Nat.div_lt_self (by omega) (by omega)

/-- Status code for success, as `NNACL_OK` in `nnacl/errorcode.h` (outside
the excerpt). -/
def NNACL_OK : Int := 0

/-- Status code for failure, as `NNACL_ERR` in `nnacl/errorcode.h` (outside
the excerpt). -/
def NNACL_ERR : Int := 1

/-- Modelled from the spec: `Conv1x1Fp32` — the only strategy entry point
with a failure path.  It validates the caller-supplied scratch capacity
against the recursion-depth-dependent requirement, returning a failure
status when the scratch buffer is undersized, and otherwise performs the
Strassen matrix multiply. -/
def Conv1x1Fp32 (mp : StrassenMatMulParameter) (input weight : Mat)
    (tmpCap : ℕ) : Int × Mat :=
  if tmpCap < strassenScratch mp.row mp.deep mp.col then
    (NNACL_ERR, fun _ _ => 0)
  else
    (NNACL_OK, strassenRec mp.row mp.deep mp.col input weight)

/-- The strategy entry points declared in `nnacl/fp32/conv.h`. -/
inductive ConvEntryPoint
  | convFp32
  | conv1x1Fp32
  | convWinogardFp32
  | conv3x3Fp32
deriving DecidableEq

/-- Whether the entry point's declared return type in `nnacl/fp32/conv.h`
is an integer status code (`int`) rather than `void`. -/
def returnsStatusCode : ConvEntryPoint → Bool
  | ConvEntryPoint.conv1x1Fp32 => true
  | _ => false

/-! ### The direct (im2col + GEMM) strategy (spec section 4.3) -/

/-- Modelled from the spec: entry `k` of the im2col row for output position
`(b, oh, ow)` — the flattened receptive field, gathered through the
synthesized zero padding.  Index `k` flattens `(kh, kw, ic)` with `ic`
fastest. -/
def im2colRow (p : ConvParameter) (input : Tensor4) (b oh ow k : ℕ) : ℚ :=
  paddedInput p input b
    ((oh * p.strideH + k / p.inC / p.kW * p.dilationH : ℕ) - (p.padU : ℤ))
    ((ow * p.strideW + k / p.inC % p.kW * p.dilationW : ℕ) - (p.padL : ℤ))
    (k % p.inC)

/-- The packed weight matrix consumed by the GEMM of the direct strategy:
row `k` flattens `(kh, kw, ic)` with `ic` fastest, column `oc` is the
output channel. -/
def weightMat (p : ConvParameter) (weight : Tensor4) (k oc : ℕ) : ℚ :=
  weight oc (k / p.inC / p.kW) (k / p.inC % p.kW) (k % p.inC)

/-- Modelled from the spec: `ConvFp32` — the direct strategy: the im2col
row of each output position is multiplied against the packed weight matrix
by the GEMM, the bias is added once per output channel, and the fused
activation of the parameter is applied. -/
def ConvFp32model (p : ConvParameter) (input weight : Tensor4)
    (bias : ℕ → ℚ) (b oh ow oc : ℕ) : ℚ :=
  applyAct p.actRelu p.actRelu6
    (bias oc +
      ∑ k in Finset.range (p.kH * (p.kW * p.inC)),
        im2colRow p input b oh ow k * weightMat p weight k oc)

/-! ### The 1×1 (Strassen) strategy (spec section 4.4) -/

/-- The input tensor reshaped to the (spatial positions × input channels)
matrix of the 1×1 strategy: row `r` flattens `(b, h, w)` with `w`
fastest. -/
def conv1x1InputMat (p : ConvParameter) (input : Tensor4) : Mat :=
  fun r ic => input (r / p.inW / p.inH) (r / p.inW % p.inH) (r % p.inW) ic

/-- The 1×1 kernel reshaped to the (input channels × output channels)
matrix of the 1×1 strategy. -/
def conv1x1WeightMat (weight : Tensor4) : Mat :=
  fun ic oc => weight oc 0 0 ic

/-- The matrix-multiply shape of the 1×1 strategy for a given convolution
parameter: (batch · height · width) × input channels × output channels. -/
def conv1x1Param (p : ConvParameter) : StrassenMatMulParameter :=
  ⟨p.batch * p.inH * p.inW, p.inC, p.outC⟩

/-- Modelled from the spec: the 1×1 strategy end to end — reshape to
matrices, multiply via the Strassen path, add the bias per output channel,
and read the result back at the flattened spatial position. -/
def Conv1x1StrategyModel (p : ConvParameter) (input weight : Tensor4)
    (bias : ℕ → ℚ) (tmpCap : ℕ) (b oh ow oc : ℕ) : ℚ :=
  bias oc +
    (Conv1x1Fp32 (conv1x1Param p) (conv1x1InputMat p input)
        (conv1x1WeightMat weight) tmpCap).2 ((b * p.inH + oh) * p.inW + ow) oc

/-! ### The Winograd strategy (spec section 4.5), F(2×2, 3×3) unit -/

/-- The 4×3 Winograd weight-transform matrix `G` of the F(2×2, 3×3)
unit. -/
def winG (r a : ℕ) : ℚ :=
  if r = 0 then (if a = 0 then 1 else 0)
  else if r = 1 then
    (if a = 0 then 1 / 2 else if a = 1 then 1 / 2 else if a = 2 then 1 / 2 else 0)
  else if r = 2 then
    (if a = 0 then 1 / 2 else if a = 1 then -(1 / 2) else if a = 2 then 1 / 2 else 0)
  else if r = 3 then (if a = 2 then 1 else 0)
  else 0

/-- The transposed 4×4 Winograd input-transform matrix `Bᵀ` of the
F(2×2, 3×3) unit. -/
def winBT (r a : ℕ) : ℚ :=
  if r = 0 then (if a = 0 then 1 else if a = 2 then -1 else 0)
  else if r = 1 then (if a = 1 then 1 else if a = 2 then 1 else 0)
  else if r = 2 then (if a = 1 then -1 else if a = 2 then 1 else 0)
  else if r = 3 then (if a = 1 then 1 else if a = 3 then -1 else 0)
  else 0

/-- The transposed 2×4 Winograd output-transform matrix `Aᵀ` of the
F(2×2, 3×3) unit. -/
def winAT (i r : ℕ) : ℚ :=
  if i = 0 then (if r = 0 then 1 else if r = 1 then 1 else if r = 2 then 1 else 0)
  else if i = 1 then
    (if r = 1 then 1 else if r = 2 then -1 else if r = 3 then -1 else 0)
  else 0

/-- The transformed weight `G g Gᵀ` of one 3×3 kernel slice `g` — the
precomputed `trans_weight` artifact of the Winograd strategy. -/
def winU (g : ℕ → ℕ → ℚ) (r c : ℕ) : ℚ :=
  ∑ a in Finset.range 3, ∑ e in Finset.range 3, winG r a * g a e * winG c e

/-- The transformed input tile `Bᵀ d B` of one 4×4 input patch `d` — the
work of `input_trans_func`. -/
def winV (d : ℕ → ℕ → ℚ) (r c : ℕ) : ℚ :=
  ∑ a in Finset.range 4, ∑ e in Finset.range 4, winBT r a * d a e * winBT c e

/-- The output transform `Aᵀ m A` of a 4×4 transform-domain tile `m` — the
work of `output_trans_func`. -/
def winOut (m : ℕ → ℕ → ℚ) (i j : ℕ) : ℚ :=
  ∑ r in Finset.range 4, ∑ c in Finset.range 4, winAT i r * m r c * winAT j c

/-- The 4×4 input patch feeding the Winograd tile `(th, tw)` for batch `b`
and input channel `ic`, read through the synthesized zero padding. -/
def winInputTile (p : ConvParameter) (input : Tensor4) (b ic th tw r c : ℕ) : ℚ :=
  paddedInput p input b ((2 * th + r : ℕ) - (p.padU : ℤ))
    ((2 * tw + c : ℕ) - (p.padL : ℤ)) ic

/-- Modelled from the spec: `ConvWinogardFp32` with the F(2×2, 3×3) unit —
transform the input tile, multiply against the precomputed transformed
weight in the transform domain accumulating over input channels, transform
back, and add the bias.  Output position `(oh, ow)` lives in tile
`(oh / 2, ow / 2)` at in-tile offset `(oh % 2, ow % 2)`. -/
def ConvWinogardFp32model (p : ConvParameter) (input weight : Tensor4)
    (bias : ℕ → ℚ) (b oh ow oc : ℕ) : ℚ :=
  bias oc +
    winOut
      (fun r c =>
        ∑ ic in Finset.range p.inC,
          winU (fun a e => weight oc a e ic) r c *
            winV (winInputTile p input b ic (oh / 2) (ow / 2)) r c)
      (oh % 2) (ow % 2)

/-- Modelled from the spec: `UnPackWinogradOutput` — copy from the
internal tiled layout (whose spatial extents are rounded up to multiples of
the output tile unit) into the caller's output tensor, writing only the
positions inside the true output bounds and discarding the excess
transformed columns and rows beyond them. -/
def UnPackWinogradOutput (src : ℕ → ℚ) (dst : Tensor4)
    (batch height width channel output_unit : ℕ) : Tensor4 :=
  fun b h w c =>
    if b < batch ∧ h < height ∧ w < width ∧ c < channel then
      src (((b * (upDiv height output_unit * output_unit) + h) *
              (upDiv width output_unit * output_unit) + w) * channel + c)
    else dst b h w c

/-! ### The TF converter node parser base class (`tf_node_parser.h`) -/

/-- Status code for success, as `RET_OK` in `include/errorcode.h` (outside
the excerpt). -/
def RET_OK : Int := 0

/-- The base-class `TFNodeParser::Parse` of `tf_node_parser.h`: its body
returns `RET_OK` and performs no writes.  The caller-visible mutable
objects (the `primitiveC` object and `*output_size`) are threaded through
as explicit state, so the result triple is (status, primitiveC after the
call, output size after the call).  The protobuf node and graph arguments
are opaque to the body and modelled generically. -/
def TFNodeParser.Parse {NodeDefT GraphDefT PrimT : Type} (tf_op : NodeDefT)
    (tf_model : GraphDefT) (primitiveC : PrimT) (output_size : Int) :
    Int × PrimT × Int :=
  (RET_OK, primitiveC, output_size)

/-! ## Helper lemmas -/

/-- Splitting a sum over `range (a + b)` into the first `a` terms and the
shifted remaining `b` terms. -/
theorem sum_range_add_shift (a b : ℕ) (f : ℕ → ℚ) :
    ∑ c in Finset.range (a + b), f c =
      ∑ c in Finset.range a, f c + ∑ c in Finset.range b, f (c + a) := by
  rw [Finset.sum_range_add]
  simp [Nat.add_comm]

/-- Flattening: a sum over `range (a * b)` is the double sum over the block
index and the in-block offset. -/
theorem sum_range_mul (a b : ℕ) (f : ℕ → ℚ) :
    ∑ k in Finset.range (a * b), f k =
      ∑ i in Finset.range a, ∑ j in Finset.range b, f (b * i + j) := by
  induction a with
  | zero => simp
  | succ n ih =>
      rw [show (n + 1) * b = n * b + b by ring, sum_range_add_shift, ih,
        Finset.sum_range_succ]
      congr 1
      refine Finset.sum_congr rfl fun j _ => ?_
      rw [show j + n * b = b * n + j by ring]

/-- A GEMM against the identity weight returns the lane unchanged for lanes
inside the padded dimension. -/
theorem gemmIdentity_eval (n : ℕ) (v : ℕ → ℚ) (j : ℕ) (hj : j < n) :
    gemmIdentity n v j = v j := by
  simp [gemmIdentity, mul_ite, Finset.sum_ite_eq, Finset.mem_range, hj]

/-- The padded channel dimension of the blocked layout covers every true
channel. -/
theorem le_mul_upDiv (C cBlock : ℕ) (hcb : 0 < cBlock) :
    C ≤ cBlock * upDiv C cBlock := by
  unfold upDiv
  have h := Nat.div_add_mod (C + cBlock - 1) cBlock
  have h2 := Nat.mod_lt (C + cBlock - 1) hcb
  omega

/-! ## Claim theorems -/

/-- Claim C10: for every input, the base-class `TFNodeParser::Parse`
returns `RET_OK` and leaves both the output-size slot and the `primitiveC`
object unmodified; it never signals an error. -/
theorem tfNodeParser_parse_noop {NodeDefT GraphDefT PrimT : Type}
    (tf_op : NodeDefT) (tf_model : GraphDefT) (primitiveC : PrimT)
    (output_size : Int) :
    (TFNodeParser.Parse tf_op tf_model primitiveC output_size).1 = RET_OK ∧
    (TFNodeParser.Parse tf_op tf_model primitiveC output_size).2.1 = primitiveC ∧
    (TFNodeParser.Parse tf_op tf_model primitiveC output_size).2.2 = output_size :=
  ⟨rfl, rfl, rfl⟩

/-- Claim C2: for every pre-activation output value of the GEMM
micro-kernel, the stored output is `max(v, 0)` under the relu flag,
`min(max(v, 0), 6)` under the relu6 flag, and `v` unmodified when neither
flag is set (the two flags are never meaningfully set together). -/
theorem gemm_activation_fusion (x w : ℕ → ℚ) (bias : ℚ) (ic4 : ℕ)
    (relu relu6 : Bool) (hmutex : ¬(relu = true ∧ relu6 = true)) :
    (relu = true →
      gemmMicroKernel x w bias ic4 relu relu6 = max (gemmAcc x w ic4 + bias) 0) ∧
    (relu6 = true →
      gemmMicroKernel x w bias ic4 relu relu6 =
        min (max (gemmAcc x w ic4 + bias) 0) 6) ∧
    (relu = false → relu6 = false →
      gemmMicroKernel x w bias ic4 relu relu6 = gemmAcc x w ic4 + bias) := by
  cases relu <;> cases relu6 <;> simp_all [gemmMicroKernel, applyAct]

/-- Witness for C2 at a concrete input with the relu flag set. -/
theorem gemm_activation_fusion_applied :
    gemmMicroKernel (fun _ => 1) (fun _ => 1) 2 1 true false =
      max (gemmAcc (fun _ => 1) (fun _ => 1) 1 + 2) 0 :=
  (gemm_activation_fusion (fun _ => 1) (fun _ => 1) 2 1 true false
    (by simp)).1 rfl

/-- Claim C7: the GEMM micro-kernel adds the bias to the accumulated result
exactly once per output value: the biased output is the unbiased output
plus the bias, and one extra accumulation step contributes only its block
dot product, never another copy of the bias. -/
theorem gemm_bias_added_once (x w : ℕ → ℚ) (bias : ℚ) (ic4 : ℕ) :
    gemmMicroKernel x w bias ic4 false false =
      gemmMicroKernel x w 0 ic4 false false + bias ∧
    gemmMicroKernel x w bias (ic4 + 1) false false -
        gemmMicroKernel x w bias ic4 false false =
      ∑ l in Finset.range 4, x (4 * ic4 + l) * w (4 * ic4 + l) := by
  constructor
  · simp [gemmMicroKernel, applyAct]
  · simp [gemmMicroKernel, applyAct, gemmAcc]

/-- Claim C3: among the strategy entry points declared in
`nnacl/fp32/conv.h`, only `Conv1x1Fp32` returns an integer status code, and
it signals failure exactly when the caller-supplied scratch buffer is
undersized for the chosen recursion depth. -/
theorem conv1x1_only_status_code :
    (∀ e : ConvEntryPoint,
      returnsStatusCode e = true ↔ e = ConvEntryPoint.conv1x1Fp32) ∧
    (∀ (mp : StrassenMatMulParameter) (X W : Mat) (cap : ℕ),
      (Conv1x1Fp32 mp X W cap).1 ≠ NNACL_OK ↔
        cap < strassenScratch mp.row mp.deep mp.col) := by
  constructor
  · intro e
    cases e <;> simp [returnsStatusCode]
  · intro mp X W cap
    by_cases hc : cap < strassenScratch mp.row mp.deep mp.col <;>
      simp [Conv1x1Fp32, hc, NNACL_OK, NNACL_ERR]

/-- Claim C8: the packing transform writes only into the provided packed
buffer — the input tensor is completely unchanged, and no packed address
beyond the written range is touched either. -/
theorem pack_frame_effect (H W C n : ℕ) (s : PackState) :
    (runPack H W C n s).input = s.input ∧
    ∀ i, n ≤ i → (runPack H W C n s).packed i = s.packed i := by
  induction n with
  | zero => exact ⟨rfl, fun i _ => rfl⟩
  | succ n ih =>
      refine ⟨?_, ?_⟩
      · simp [runPack, writePacked, ih.1]
      · intro i hi
        simp only [runPack, writePacked]
        rw [if_neg (by omega)]
        exact ih.2 i (by omega)

/-- Witness for C8 at a concrete state and address beyond the written
range. -/
theorem pack_frame_effect_applied :
    (runPack 1 1 1 2 ⟨fun _ => 5, fun _ => 0⟩).packed 3 = (0 : ℚ) :=
  (pack_frame_effect 1 1 1 2 ⟨fun _ => 5, fun _ => 0⟩).2 3 (by decide)

/-- Claim C9: `UnPackWinogradOutput` writes into the destination only the
values inside the true output bounds, reading them from the tiled source
layout whose spatial extents are rounded up to multiples of the output tile
unit, and leaves every destination position beyond the true bounds
untouched — the excess transformed columns and rows are discarded. -/
theorem unpackWinogradOutput_true_bounds (src : ℕ → ℚ) (dst : Tensor4)
    (batch height width channel output_unit b h w c : ℕ) :
    (b < batch → h < height → w < width → c < channel →
      UnPackWinogradOutput src dst batch height width channel output_unit b h w c =
        src (((b * (upDiv height output_unit * output_unit) + h) *
                (upDiv width output_unit * output_unit) + w) * channel + c)) ∧
    (¬(b < batch ∧ h < height ∧ w < width ∧ c < channel) →
      UnPackWinogradOutput src dst batch height width channel output_unit b h w c =
        dst b h w c) := by
  constructor
  · intro h1 h2 h3 h4
    simp [UnPackWinogradOutput, h1, h2, h3, h4]
  · intro hout
    simp [UnPackWinogradOutput, hout]

/-- Witness for C9: a 3×3 output with tile unit 2 (tiled extent 4×4), one
in-bounds position copied from the tiled source and one out-of-bounds
position left unchanged. -/
theorem unpackWinogradOutput_true_bounds_applied :
    UnPackWinogradOutput (fun n : ℕ => (n : ℚ)) (fun _ _ _ _ => 7) 1 3 3 1 2 0 1 2 0 =
      (fun n : ℕ => (n : ℚ))
        (((0 * (upDiv 3 2 * 2) + 1) * (upDiv 3 2 * 2) + 2) * 1 + 0) ∧
    UnPackWinogradOutput (fun n : ℕ => (n : ℚ)) (fun _ _ _ _ => 7) 1 3 3 1 2 0 3 0 0 =
      (fun _ _ _ _ => (7 : ℚ)) 0 3 0 0 :=
  ⟨(unpackWinogradOutput_true_bounds (fun n : ℕ => (n : ℚ)) (fun _ _ _ _ => 7)
      1 3 3 1 2 0 1 2 0).1 (by decide) (by decide) (by decide) (by decide),
   (unpackWinogradOutput_true_bounds (fun n : ℕ => (n : ℚ)) (fun _ _ _ _ => 7)
      1 3 3 1 2 0 3 0 0).2 (by decide)⟩

/-- Claim C4: for every task count `T > 0` and output size `N`, the `T`
task slices are contiguous (each slice ends where the next begins),
pairwise disjoint, and their union is exactly the interval `[0, N)`, for
both even and non-even divisions — the final slice absorbs the
remainder. -/
theorem task_partition_exact (N T : ℕ) (hT : 0 < T) :
    (∀ t, t + 1 < T → sliceEnd N T t = sliceStart N T (t + 1)) ∧
    (∀ t u, t < u → u < T → Disjoint (taskSlice N T t) (taskSlice N T u)) ∧
    (Finset.range T).biUnion (taskSlice N T) = Finset.range N := by
  refine ⟨?_, ?_, ?_⟩
  · intro t ht
    simp [sliceEnd, sliceStart, show t + 1 ≠ T by omega]
  · intro t u htu huT
    rw [Finset.disjoint_left]
    intro a ha ha'
    simp only [taskSlice, Finset.mem_Ico] at ha ha'
    have hend : sliceEnd N T t ≤ sliceStart N T u := by
      have htT : t + 1 ≠ T := by omega
      have h1 : (t + 1) * (N / T) ≤ u * (N / T) :=
        Nat.mul_le_mul_right _ (by omega)
      simp only [sliceEnd, sliceStart, if_neg htT]
      exact h1
    omega
  · ext a
    simp only [Finset.mem_biUnion, Finset.mem_range, taskSlice, Finset.mem_Ico]
    constructor
    · rintro ⟨t, htT, hlo, hhi⟩
      by_cases hlast : t + 1 = T
      · simpa [sliceEnd, hlast] using hhi
      · have h1 : (t + 1) * (N / T) ≤ T * (N / T) :=
          Nat.mul_le_mul_right _ (by omega)
        have h2 : T * (N / T) ≤ N := by
          rw [Nat.mul_comm]
          exact Nat.div_mul_le_self N T
        simp only [sliceEnd, if_neg hlast] at hhi
        omega
    · intro haN
      by_cases hu : N / T = 0
      · refine ⟨T - 1, by omega, ?_, ?_⟩
        · simp [sliceStart, hu]
        · simp [sliceEnd, show T - 1 + 1 = T by omega]
          exact haN
      · by_cases hbig : T - 1 ≤ a / (N / T)
        · refine ⟨T - 1, by omega, ?_, ?_⟩
          · have h1 : (T - 1) * (N / T) ≤ a / (N / T) * (N / T) :=
              Nat.mul_le_mul_right _ hbig
            have h2 : a / (N / T) * (N / T) ≤ a := Nat.div_mul_le_self a (N / T)
            simpa [sliceStart] using le_trans h1 h2
          · simp [sliceEnd, show T - 1 + 1 = T by omega]
            exact haN
        · refine ⟨a / (N / T), by omega, ?_, ?_⟩
          · simpa [sliceStart] using Nat.div_mul_le_self a (N / T)
          · have hne : a / (N / T) + 1 ≠ T := by omega
            simp only [sliceEnd, if_neg hne]
            calc a = N / T * (a / (N / T)) + a % (N / T) :=
                  (Nat.div_add_mod a (N / T)).symm
              _ < N / T * (a / (N / T)) + N / T :=
                  Nat.add_lt_add_left (Nat.mod_lt a (Nat.pos_of_ne_zero hu)) _
              _ = (a / (N / T) + 1) * (N / T) := by ring

/-- Witness for C4: seven outputs over three tasks (non-even division). -/
theorem task_partition_exact_applied :
    (Finset.range 3).biUnion (taskSlice 7 3) = Finset.range 7 :=
  (task_partition_exact 7 3 (by decide)).2.2

/-- Claim C5: packing a channel vector into the blocked layout, running the
GEMM with the identity weight over the padded channel dimension, and
unpacking returns the original value at every channel within the true
bounds, and every synthesized padding lane of the packed buffer holds an
exact zero. -/
theorem pack_gemm_unpack_roundtrip (cBlock C : ℕ) (x : ℕ → ℚ)
    (hcb : 0 < cBlock) :
    (∀ c, c < C → packGemmUnpack cBlock C x c = x c) ∧
    (∀ blk inner, ¬(cBlock * blk + inner < C) →
      packChan cBlock C x blk inner = 0) := by
  constructor
  · intro c hc
    have hdm : cBlock * (c / cBlock) + c % cBlock = c := Nat.div_add_mod c cBlock
    have hlt : c < cBlock * upDiv C cBlock :=
      lt_of_lt_of_le hc (le_mul_upDiv C cBlock hcb)
    simp only [packGemmUnpack, unpackChan, hdm]
    rw [gemmIdentity_eval _ _ _ hlt]
    simp only [packChan, hdm, if_pos hc]
  · intro blk inner hout
    simp [packChan, hout]

/-- Witness for C5: five channels in blocks of four — channel 2 makes the
round trip unchanged, and padding lane (1, 3) of the packed buffer is an
exact zero. -/
theorem pack_gemm_unpack_roundtrip_applied :
    packGemmUnpack 4 5 (fun c => (c : ℚ) + 10) 2 = (fun c : ℕ => (c : ℚ) + 10) 2 ∧
    packChan 4 5 (fun c => (c : ℚ) + 10) 1 3 = 0 :=
  ⟨(pack_gemm_unpack_roundtrip 4 5 (fun c => (c : ℚ) + 10) (by decide)).1 2
      (by decide),
   (pack_gemm_unpack_roundtrip 4 5 (fun c => (c : ℚ) + 10) (by decide)).2 1 3
      (by decide)⟩

/-- Splitting the inner accumulation of the standard GEMM in halves, for an
even inner dimension. -/
theorem mulM_split_even (K : ℕ) (hK : K % 2 = 0) (A B : Mat) (i j : ℕ) :
    mulM K A B i j =
      (∑ c in Finset.range (K / 2), A i c * B c j) +
        ∑ c in Finset.range (K / 2), A i (c + K / 2) * B (c + K / 2) j := by
  have h2 : K = K / 2 + K / 2 := by omega
  simp only [mulM]
  conv_lhs => rw [h2]
  exact sum_range_add_shift (K / 2) (K / 2) _

/-- The Strassen path computes the same product as the standard tiled GEMM
at every recursion depth. -/
theorem strassenRec_eq_mulM : ∀ (K M N : ℕ) (A B : Mat),
    strassenRec M K N A B = mulM K A B := by
  intro K
  induction K using Nat.strong_induction_on with
  | _ K ih =>
    intro M N A B
    rw [strassenRec]
    split
    · rfl
    · next h =>
      have hth : strassenThreshold = 32 := rfl
      have hK2 : K / 2 < K := Nat.div_lt_self (by omega) (by omega)
      simp only [ih (K / 2) hK2]
      funext i j
      split_ifs with hi hj hj
      · rw [mulM_split_even K (by omega) A B i j]
        simp only [addM, subM, mulM]
        simp only [add_mul, mul_add, sub_mul, mul_sub, Finset.sum_add_distrib,
          Finset.sum_sub_distrib]
        ring
      · have hj' : N / 2 ≤ j := by omega
        rw [mulM_split_even K (by omega) A B i j]
        simp only [addM, subM, mulM]
        simp only [Nat.sub_add_cancel hj']
        simp only [add_mul, mul_add, sub_mul, mul_sub, Finset.sum_add_distrib,
          Finset.sum_sub_distrib]
        ring
      · have hi' : M / 2 ≤ i := by omega
        rw [mulM_split_even K (by omega) A B i j]
        simp only [addM, subM, mulM]
        simp only [Nat.sub_add_cancel hi']
        simp only [add_mul, mul_add, sub_mul, mul_sub, Finset.sum_add_distrib,
          Finset.sum_sub_distrib]
        ring
      · have hi' : M / 2 ≤ i := by omega
        have hj' : N / 2 ≤ j := by omega
        rw [mulM_split_even K (by omega) A B i j]
        simp only [addM, subM, mulM]
        simp only [Nat.sub_add_cancel hi', Nat.sub_add_cancel hj']
        simp only [add_mul, mul_add, sub_mul, mul_sub, Finset.sum_add_distrib,
          Finset.sum_sub_distrib]
        ring

/-- Claim C6: at and below the recursion threshold the Strassen path of
`Conv1x1Fp32` falls back to the standard tiled GEMM and matches it; above
the threshold the recursive 7-multiplication decomposition still matches
the plain-GEMM result; and `Conv1x1Fp32` runs the Strassen path whenever
the scratch capacity suffices. -/
theorem strassen_matches_plain_gemm :
    (∀ (M K N : ℕ) (A B : Mat), K ≤ strassenThreshold →
      strassenRec M K N A B = mulM K A B) ∧
    (∀ (M K N : ℕ) (A B : Mat), strassenThreshold < K →
      strassenRec M K N A B = mulM K A B) ∧
    (∀ (mp : StrassenMatMulParameter) (X W : Mat) (cap : ℕ),
      strassenScratch mp.row mp.deep mp.col ≤ cap →
      (Conv1x1Fp32 mp X W cap).2 = strassenRec mp.row mp.deep mp.col X W) := by
  refine ⟨?_, ?_, ?_⟩
  · intro M K N A B hK
    rw [strassenRec, dif_pos (Or.inr (Or.inl hK))]
  · intro M K N A B hK
    exact strassenRec_eq_mulM K M N A B
  · intro mp X W cap hcap
    rw [Conv1x1Fp32, if_neg (not_lt.mpr hcap)]

/-- Witness for C6: dimension 34 sits just above the threshold 32 and the
Strassen result still matches the plain GEMM; a small problem runs through
`Conv1x1Fp32` with no scratch at all. -/
theorem strassen_matches_plain_gemm_applied :
    strassenRec 34 34 34 (fun _ _ => 1) (fun _ _ => 1) =
      mulM 34 (fun _ _ => 1) (fun _ _ => 1) ∧
    (Conv1x1Fp32 ⟨2, 2, 2⟩ (fun _ _ => 1) (fun _ _ => 1) 0).2 =
      strassenRec 2 2 2 (fun _ _ => 1) (fun _ _ => 1) :=
  ⟨strassen_matches_plain_gemm.2.1 34 34 34 _ _ (by decide),
   strassen_matches_plain_gemm.2.2 ⟨2, 2, 2⟩ _ _ 0
     (by rw [strassenScratch]; norm_num [strassenThreshold])⟩

/-- Pulling a sum over input channels out of the Winograd output
transform. -/
theorem winOut_sum (n : ℕ) (F : ℕ → ℕ → ℕ → ℚ) (i j : ℕ) :
    winOut (fun r c => ∑ ic in Finset.range n, F ic r c) i j =
      ∑ ic in Finset.range n, winOut (F ic) i j := by
  calc winOut (fun r c => ∑ ic in Finset.range n, F ic r c) i j
      = ∑ r in Finset.range 4, ∑ c in Finset.range 4,
          ∑ ic in Finset.range n, winAT i r * F ic r c * winAT j c := by
        unfold winOut
        refine Finset.sum_congr rfl fun r _ => Finset.sum_congr rfl fun c _ => ?_
        rw [Finset.mul_sum, Finset.sum_mul]
    _ = ∑ ic in Finset.range n, ∑ r in Finset.range 4, ∑ c in Finset.range 4,
          winAT i r * F ic r c * winAT j c := by
        rw [show (∑ r in Finset.range 4, ∑ c in Finset.range 4,
            ∑ ic in Finset.range n, winAT i r * F ic r c * winAT j c) =
              ∑ r in Finset.range 4, ∑ ic in Finset.range n,
                ∑ c in Finset.range 4, winAT i r * F ic r c * winAT j c from
          Finset.sum_congr rfl fun r _ => Finset.sum_comm]
        exact Finset.sum_comm
    _ = ∑ ic in Finset.range n, winOut (F ic) i j := by
        simp only [winOut]

set_option maxHeartbeats 1600000 in
/-- The F(2×2, 3×3) Winograd identity: output transform of the elementwise
product of transformed weight and transformed input equals the direct 3×3
correlation of the input patch with the kernel slice. -/
theorem winograd_tile_identity (d g : ℕ → ℕ → ℚ) (i j : ℕ) (hi : i < 2)
    (hj : j < 2) :
    winOut (fun r c => winU g r c * winV d r c) i j =
      ∑ r in Finset.range 3, ∑ c in Finset.range 3, d (i + r) (j + c) * g r c := by
  interval_cases i <;> interval_cases j <;>
  · simp only [winOut, winU, winV, winG, winBT, winAT, Finset.sum_range_succ,
      Finset.sum_range_zero, reduceIte]
    norm_num
    ring

/-- Rotating the outermost sum of a triple sum to the innermost
position. -/
theorem sum_rotate (s t u : Finset ℕ) (f : ℕ → ℕ → ℕ → ℚ) :
    ∑ a in s, ∑ r in t, ∑ c in u, f a r c =
      ∑ r in t, ∑ c in u, ∑ a in s, f a r c := by
  rw [Finset.sum_comm]
  exact Finset.sum_congr rfl fun r _ => Finset.sum_comm

/-- Decoding a flattened pair index: quotient and remainder recover the two
coordinates. -/
theorem decode_pair (W q r : ℕ) (hr : r < W) :
    (q * W + r) / W = q ∧ (q * W + r) % W = r := by
  constructor
  · rw [show q * W + r = W * q + r by ring, Nat.mul_add_div (by omega),
      Nat.div_eq_of_lt hr, Nat.add_zero]
  · rw [show q * W + r = W * q + r by ring, Nat.mul_add_mod,
      Nat.mod_eq_of_lt hr]

/-- Decoding a flattened kernel-position/channel triple index, with the
channel fastest. -/
theorem decode_triple (inC kW kh kw ic : ℕ) (h1 : 0 < inC) (h2 : 0 < kW)
    (hkw : kw < kW) (hic : ic < inC) :
    (kW * inC * kh + (inC * kw + ic)) / inC / kW = kh ∧
    (kW * inC * kh + (inC * kw + ic)) / inC % kW = kw ∧
    (kW * inC * kh + (inC * kw + ic)) % inC = ic := by
  have hk : kW * inC * kh + (inC * kw + ic) = inC * (kW * kh + kw) + ic := by
    ring
  have hdiv : (kW * inC * kh + (inC * kw + ic)) / inC = kW * kh + kw := by
    rw [hk, Nat.mul_add_div h1, Nat.div_eq_of_lt hic, Nat.add_zero]
  refine ⟨?_, ?_, ?_⟩
  · rw [hdiv, Nat.mul_add_div h2, Nat.div_eq_of_lt hkw, Nat.add_zero]
  · rw [hdiv, Nat.mul_add_mod, Nat.mod_eq_of_lt hkw]
  · rw [hk, Nat.mul_add_mod, Nat.mod_eq_of_lt hic]

/-- With no activation flag set, the fused activation is the identity. -/
theorem applyAct_none (v : ℚ) : applyAct false false v = v := rfl

/-- Reading the padded input inside the true bounds is reading the input
itself. -/
theorem paddedInput_inBounds (p : ConvParameter) (input : Tensor4)
    (b h w c : ℕ) (hh : h < p.inH) (hw : w < p.inW) :
    paddedInput p input b (h : ℤ) (w : ℤ) c = input b h w c := by
  unfold paddedInput
  rw [if_pos (by omega)]
  simp only [Int.toNat_natCast]

/-- The direct im2col + GEMM strategy agrees with the reference convolution
for every output position, when no activation is fused. -/
theorem convFp32_eq_ref (p : ConvParameter) (input weight : Tensor4)
    (bias : ℕ → ℚ) (b oh ow oc : ℕ) (hC : 0 < p.inC) (hkW : 0 < p.kW)
    (hra : p.actRelu = false) (hra6 : p.actRelu6 = false) :
    ConvFp32model p input weight bias b oh ow oc =
      convRef p input weight bias b oh ow oc := by
  unfold ConvFp32model convRef
  rw [hra, hra6, applyAct_none]
  congr 1
  rw [sum_range_mul p.kH (p.kW * p.inC)]
  refine Finset.sum_congr rfl fun kh _ => ?_
  rw [sum_range_mul p.kW p.inC]
  refine Finset.sum_congr rfl fun kw hkw => Finset.sum_congr rfl fun ic hic => ?_
  rw [Finset.mem_range] at hkw hic
  obtain ⟨e1, e2, e3⟩ := decode_triple p.inC p.kW kh kw ic hC hkW hkw hic
  simp only [im2colRow, weightMat, e1, e2, e3]

/-- The 1×1 Strassen strategy agrees with the reference convolution for
every in-bounds output position of a valid 1×1 configuration, given
sufficient scratch capacity. -/
theorem conv1x1_eq_ref (p : ConvParameter) (input weight : Tensor4)
    (bias : ℕ → ℚ) (tmpCap : ℕ) (b oh ow oc : ℕ) (hkH : p.kH = 1)
    (hkW : p.kW = 1) (hsH : p.strideH = 1) (hsW : p.strideW = 1)
    (hpU : p.padU = 0) (hpL : p.padL = 0) (hdH : p.dilationH = 1)
    (hdW : p.dilationW = 1) (hoH : p.outH = p.inH) (hoW : p.outW = p.inW)
    (hoh : oh < p.outH) (how : ow < p.outW)
    (hcap : strassenScratch (p.batch * p.inH * p.inW) p.inC p.outC ≤ tmpCap) :
    Conv1x1StrategyModel p input weight bias tmpCap b oh ow oc =
      convRef p input weight bias b oh ow oc := by
  have hih : oh < p.inH := by omega
  have hiw : ow < p.inW := by omega
  simp only [Conv1x1StrategyModel, Conv1x1Fp32, conv1x1Param]
  rw [if_neg (not_lt.mpr hcap)]
  rw [strassenRec_eq_mulM]
  simp only [mulM, conv1x1InputMat, conv1x1WeightMat]
  obtain ⟨ed1, em1⟩ := decode_pair p.inW (b * p.inH + oh) ow hiw
  obtain ⟨ed2, em2⟩ := decode_pair p.inH b oh hih
  simp only [ed1, em1, ed2, em2]
  unfold convRef
  simp only [hkH, hkW, hsH, hsW, hpU, hpL, hdH, hdW, Finset.sum_range_one]
  congr 1
  refine Finset.sum_congr rfl fun ic _ => ?_
  simp only [mul_one, add_zero, Nat.cast_zero, sub_zero]
  rw [paddedInput_inBounds p input b oh ow ic hih hiw]

/-- The Winograd F(2×2, 3×3) strategy agrees with the reference convolution
for every output position of a valid 3×3, stride-1, dilation-1
configuration. -/
theorem convWinograd_eq_ref (p : ConvParameter) (input weight : Tensor4)
    (bias : ℕ → ℚ) (b oh ow oc : ℕ) (hkH : p.kH = 3) (hkW : p.kW = 3)
    (hsH : p.strideH = 1) (hsW : p.strideW = 1) (hdH : p.dilationH = 1)
    (hdW : p.dilationW = 1) :
    ConvWinogardFp32model p input weight bias b oh ow oc =
      convRef p input weight bias b oh ow oc := by
  unfold ConvWinogardFp32model convRef
  simp only [hkH, hkW, hsH, hsW, hdH, hdW]
  congr 1
  rw [winOut_sum p.inC
    (fun ic r c => winU (fun a e => weight oc a e ic) r c *
      winV (winInputTile p input b ic (oh / 2) (ow / 2)) r c) (oh % 2) (ow % 2)]
  rw [Finset.sum_congr rfl fun ic _ =>
    winograd_tile_identity (winInputTile p input b ic (oh / 2) (ow / 2))
      (fun a e => weight oc a e ic) (oh % 2) (ow % 2)
      (Nat.mod_lt oh (by norm_num)) (Nat.mod_lt ow (by norm_num))]
  rw [sum_rotate]
  refine Finset.sum_congr rfl fun r _ => Finset.sum_congr rfl fun c _ =>
    Finset.sum_congr rfl fun ic _ => ?_
  congr 1
  unfold winInputTile
  rw [show 2 * (oh / 2) + (oh % 2 + r) = oh * 1 + r * 1 by omega,
    show 2 * (ow / 2) + (ow % 2 + c) = ow * 1 + c * 1 by omega]

/-- Claim C1: each of the three strategies — direct im2col+GEMM
(`ConvFp32`), 1×1/Strassen (`Conv1x1Fp32`), and Winograd
(`ConvWinogardFp32`) — applied to a configuration on which that strategy is
individually valid, produces output exactly equal (hence within any
floating-point tolerance) to the direct mathematical convolution definition
for the same parameters, weights and bias. -/
theorem conv_strategies_match_reference :
    (∀ (p : ConvParameter) (input weight : Tensor4) (bias : ℕ → ℚ)
        (b oh ow oc : ℕ), 0 < p.inC → 0 < p.kW → p.actRelu = false →
        p.actRelu6 = false →
        ConvFp32model p input weight bias b oh ow oc =
          convRef p input weight bias b oh ow oc) ∧
    (∀ (p : ConvParameter) (input weight : Tensor4) (bias : ℕ → ℚ)
        (tmpCap b oh ow oc : ℕ), p.kH = 1 → p.kW = 1 → p.strideH = 1 →
        p.strideW = 1 → p.padU = 0 → p.padL = 0 → p.dilationH = 1 →
        p.dilationW = 1 → p.outH = p.inH → p.outW = p.inW → oh < p.outH →
        ow < p.outW →
        strassenScratch (p.batch * p.inH * p.inW) p.inC p.outC ≤ tmpCap →
        Conv1x1StrategyModel p input weight bias tmpCap b oh ow oc =
          convRef p input weight bias b oh ow oc) ∧
    (∀ (p : ConvParameter) (input weight : Tensor4) (bias : ℕ → ℚ)
        (b oh ow oc : ℕ), p.kH = 3 → p.kW = 3 → p.strideH = 1 →
        p.strideW = 1 → p.dilationH = 1 → p.dilationW = 1 →
        ConvWinogardFp32model p input weight bias b oh ow oc =
          convRef p input weight bias b oh ow oc) :=
  ⟨fun p input weight bias b oh ow oc h1 h2 h3 h4 =>
      convFp32_eq_ref p input weight bias b oh ow oc h1 h2 h3 h4,
   fun p input weight bias tmpCap b oh ow oc h1 h2 h3 h4 h5 h6 h7 h8 h9 h10
        h11 h12 h13 =>
      conv1x1_eq_ref p input weight bias tmpCap b oh ow oc h1 h2 h3 h4 h5 h6
        h7 h8 h9 h10 h11 h12 h13,
   fun p input weight bias b oh ow oc h1 h2 h3 h4 h5 h6 =>
      convWinograd_eq_ref p input weight bias b oh ow oc h1 h2 h3 h4 h5 h6⟩

/-- Witness for C1: each strategy applied at a small concrete in-bounds
configuration valid for it. -/
theorem conv_strategies_match_reference_applied :
    ConvFp32model ⟨1, 3, 3, 1, 1, 1, 1, 3, 3, 1, 1, 0, 0, 1, 1, 1, false, false⟩
        (fun _ _ _ _ => 1) (fun _ _ _ _ => 1) (fun _ => 0) 0 0 0 0 =
      convRef ⟨1, 3, 3, 1, 1, 1, 1, 3, 3, 1, 1, 0, 0, 1, 1, 1, false, false⟩
        (fun _ _ _ _ => 1) (fun _ _ _ _ => 1) (fun _ => 0) 0 0 0 0 ∧
    Conv1x1StrategyModel
        ⟨1, 2, 2, 2, 2, 2, 3, 1, 1, 1, 1, 0, 0, 1, 1, 1, false, false⟩
        (fun _ _ _ _ => 1) (fun _ _ _ _ => 1) (fun _ => 0) 0 0 1 1 2 =
      convRef ⟨1, 2, 2, 2, 2, 2, 3, 1, 1, 1, 1, 0, 0, 1, 1, 1, false, false⟩
        (fun _ _ _ _ => 1) (fun _ _ _ _ => 1) (fun _ => 0) 0 1 1 2 ∧
    ConvWinogardFp32model
        ⟨1, 4, 4, 1, 2, 2, 1, 3, 3, 1, 1, 0, 0, 1, 1, 1, false, false⟩
        (fun _ _ _ _ => 1) (fun _ _ _ _ => 1) (fun _ => 0) 0 1 1 0 =
      convRef ⟨1, 4, 4, 1, 2, 2, 1, 3, 3, 1, 1, 0, 0, 1, 1, 1, false, false⟩
        (fun _ _ _ _ => 1) (fun _ _ _ _ => 1) (fun _ => 0) 0 1 1 0 :=
  ⟨conv_strategies_match_reference.1 _ (fun _ _ _ _ => 1) (fun _ _ _ _ => 1)
      (fun _ => 0) 0 0 0 0 (by decide) (by decide) rfl rfl,
   conv_strategies_match_reference.2.1 _ (fun _ _ _ _ => 1)
      (fun _ _ _ _ => 1) (fun _ => 0) 0 0 1 1 2 rfl rfl rfl rfl rfl rfl rfl
      rfl rfl rfl (by decide) (by decide)
      (by rw [strassenScratch]; norm_num [strassenThreshold]),
   conv_strategies_match_reference.2.2 _ (fun _ _ _ _ => 1)
      (fun _ _ _ _ => 1) (fun _ => 0) 0 1 1 0 rfl rfl rfl rfl rfl rfl⟩
